import Mathlib

/-!
Verification development for the CortexShade secure event pipeline.

Byte strings are modelled as `List Nat`.  The cryptographic primitives
(`cryptography.fernet.Fernet`, `PBKDF2HMAC`, `base64.urlsafe_b64encode`) and
the `json` module are external libraries, not part of the repository sources;
they are modelled from the spec's stated contracts (authenticated encryption
with an ideal MAC, deterministic injective key derivation, injective
serialisation with a total inverse on its range).  Everything else is a direct
shallow embedding of the Python sources.
-/

namespace CortexShade

/-- Byte strings (Python `bytes`) are lists of naturals. -/
abbrev Bytes := List Nat

/-- Modelled from the spec: an injective, losslessly decodable pairing of two
byte strings, the basic building block of the ideal-MAC model of the external
Fernet primitive.  The first component is length-prefixed. -/
def encodePair (k b : Bytes) : Bytes := k.length :: (k ++ b)

/-- Inverse of `encodePair`: recover the two components, or `none` when the
byte string is not a well-formed pair encoding. -/
def decodePair : Bytes → Option (Bytes × Bytes)
  | [] => none
  | n :: rest => if n ≤ rest.length then some (rest.take n, rest.drop n) else none

/-- Errors the cipher wrapper can surface: `authenticationError` models
`cryptography.fernet.InvalidToken`, `unicodeDecodeError` models a failing
`bytes.decode()`. -/
inductive CryptoError
  | authenticationError
  | unicodeDecodeError
deriving DecidableEq

/-- Modelled from the spec: Fernet's authenticated encryption.  The token is
the pair encoding of (key, body) followed by a full redundant copy, the ideal
MAC: any discrepancy between payload and tag half is detected, and the tag
binds both the key and every byte of the body. -/
def fernetEncrypt (key body : Bytes) : Bytes :=
  encodePair key body ++ encodePair key body

/-- Modelled from the spec: Fernet decryption.  Checks the integrity tag
(the two halves must agree), then checks the key; any mismatch is an
authentication failure, mirroring `InvalidToken`. -/
def fernetDecrypt (key c : Bytes) : Except CryptoError Bytes :=
  if c.take (c.length / 2) = c.drop (c.length / 2) then
    match decodePair (c.take (c.length / 2)) with
    | some (k, body) => if k = key then .ok body else .error .authenticationError
    | none => .error .authenticationError
  else .error .authenticationError

/-- Python `str.encode()`: a string as a list of code points. -/
def strEncode (s : String) : Bytes := s.data.map Char.toNat

/-- Python `bytes.decode()`: recover a string, failing (like
`UnicodeDecodeError`) when some byte is not a valid code point. -/
def strDecode (l : Bytes) : Option String :=
  if ∀ n ∈ l, Nat.isValidChar n then some (String.mk (l.map Char.ofNat)) else none

/-- Shallow embedding of `CryptoUtils` from `src/crypto.py`: wraps a fixed
Fernet key for its lifetime. -/
structure CryptoUtils where
  key : Bytes

/-- `CryptoUtils.encrypt`: encrypts a string and returns the encrypted bytes
(`self.cipher.encrypt(text.encode())`). -/
def CryptoUtils.encrypt (c : CryptoUtils) (text : String) : Bytes :=
  fernetEncrypt c.key (strEncode text)

/-- `CryptoUtils.decrypt`: decrypts encrypted bytes and returns the original
string (`self.cipher.decrypt(token).decode()`); failures surface as errors. -/
def CryptoUtils.decrypt (c : CryptoUtils) (token : Bytes) : Except CryptoError String :=
  match fernetDecrypt c.key token with
  | .ok body =>
    match strDecode body with
    | some s => .ok s
    | none => .error .unicodeDecodeError
  | .error e => .error e

/-- Modelled from the spec: PBKDF2-HMAC-SHA256 at 390000 iterations, from the
external cryptography library.  Modelled as a deterministic derivation that is
injective in the (password, salt) pair - the idealisation of "same (password,
salt) always gives the same key; different passwords give computationally
unrelated keys".  The fixed 32-byte output length is abstracted away. -/
def pbkdf2_hmac_sha256 (password salt : Bytes) : Bytes :=
  encodePair password salt

/-- Modelled from the spec: `base64.urlsafe_b64encode` from the external
base64 library, as an injective recoding into 6-bit groups. -/
def urlsafe_b64encode (l : Bytes) : Bytes :=
  (l.map (fun b => [b / 64, b % 64])).flatten

/-- `derive_key_from_password` from `src/key_manager.py`.  The salt-file
contents (`none` when the file does not exist) and the fresh randomness used
when it does not are passed explicitly; the result is the derived key together
with the salt-file contents after the call. -/
def derive_key_from_password (password : String) (saltFile : Option Bytes)
    (freshSalt : Bytes) : Bytes × Option Bytes :=
  match saltFile with
  | some salt =>
    (urlsafe_b64encode (pbkdf2_hmac_sha256 (strEncode password) salt), some salt)
  | none =>
    (urlsafe_b64encode (pbkdf2_hmac_sha256 (strEncode password) freshSalt), some freshSalt)

/-- `Redactor.redact` from `src/redact.py`, one left-to-right non-overlapping
pass of Python `text.replace("secret", "[REDACTED]")` over the characters. -/
def redactAux : List Char → List Char
  | [] => []
  | c :: cs =>
    if "secret".data.isPrefixOf (c :: cs) then
      "[REDACTED]".data ++ redactAux (cs.drop 5)
    else
      c :: redactAux cs
termination_by l => l.length
decreasing_by
  all_goals simp only [List.length_drop, List.length_cons]
  all_goals omega

/-- `Redactor.redact`: replace every occurrence of the marker. -/
def redact (text : String) : String :=
  String.mk (redactAux text.data)

/-- Python dicts with string keys and string values, in insertion order, as
association lists: the event records of the pipeline. -/
abbrev Event := List (String × String)

/-- Python `event[key]` lookup (also `key in event` via `.isSome`). -/
def dictGet : Event → String → Option String
  | [], _ => none
  | (k, v) :: rest, key => if k = key then some v else dictGet rest key

/-- Python `event[key] = val`: overwrite the existing entry in place, or
insert a new one at the end. -/
def dictSet : Event → String → String → Event
  | [], key, val => [(key, val)]
  | (k, v) :: rest, key, val =>
    if k = key then (k, val) :: rest else (k, v) :: dictSet rest key val

/-- `EventSchema.validate` from `src/schemas.py`: the required keys `id`,
`timestamp`, `data` are all present; nothing else is checked. -/
def EventSchema.validate (event : Event) : Bool :=
  ["id", "timestamp", "data"].all fun key => (dictGet event key).isSome

/-- Modelled from the spec: the serialisation model of the external `json`
module starts from a unary length encoding. -/
def encNat (n : Nat) : List Char := List.replicate n '1' ++ ['0']

def decNat : List Char → Option (Nat × List Char)
  | [] => none
  | c :: rest =>
    if c = '0' then some (0, rest)
    else if c = '1' then
      match decNat rest with
      | some (n, r) => some (n + 1, r)
      | none => none
    else none

/-- Length-prefixed string piece of the serialisation model. -/
def encStr (s : String) : List Char := encNat s.data.length ++ s.data

def decStr (l : List Char) : Option (String × List Char) :=
  match decNat l with
  | some (n, r) => if n ≤ r.length then some (String.mk (r.take n), r.drop n) else none
  | none => none

/-- Key/value piece of the serialisation model. -/
def encPairSS (p : String × String) : List Char := encStr p.1 ++ encStr p.2

def decPairSS (l : List Char) : Option ((String × String) × List Char) :=
  match decStr l with
  | some (a, r) =>
    match decStr r with
    | some (b, r2) => some ((a, b), r2)
    | none => none
  | none => none

/-- Length-prefixed list piece of the serialisation model. -/
def encListWith (enc : α → List Char) (l : List α) : List Char :=
  encNat l.length ++ (l.map enc).flatten

def decCount (dec : List Char → Option (α × List Char)) :
    Nat → List Char → Option (List α × List Char)
  | 0, l => some ([], l)
  | n + 1, l =>
    match dec l with
    | some (a, r) =>
      match decCount dec n r with
      | some (as, r2) => some (a :: as, r2)
      | none => none
    | none => none

def decListWith (dec : List Char → Option (α × List Char)) (l : List Char) :
    Option (List α × List Char) :=
  match decNat l with
  | some (n, r) => decCount dec n r
  | none => none

/-- Modelled from the spec: `json.dumps` for one event record.  The external
json library's contract `loads(dumps(x)) == x` is what the development uses;
the encoding itself is the injective model above. -/
def jsonDumpsEvent (e : Event) : String := String.mk (encListWith encPairSS e)

def jsonLoadsEvent (s : String) : Option Event :=
  match decListWith decPairSS s.data with
  | some (e, r) => if r = [] then some e else none
  | none => none

/-- The in-memory suspicion aggregate `self.suspicions`: the two named ordered
sequences `video` and `audio` (`src/main.py` line 34). -/
structure Aggregate where
  video : List Event
  audio : List Event
deriving DecidableEq

/-- Modelled from the spec: `json.dump`/`json.dumps` of the aggregate. -/
def jsonDumpsAggregate (a : Aggregate) : String :=
  String.mk (encListWith (fun e => encListWith encPairSS e) a.video
    ++ encListWith (fun e => encListWith encPairSS e) a.audio)

/-- Modelled from the spec: `json.loads` of an aggregate, the inverse of
`jsonDumpsAggregate` on its range, `none` elsewhere. -/
def jsonLoadsAggregate (s : String) : Option Aggregate :=
  match decListWith (decListWith decPairSS) s.data with
  | some (video, r) =>
    match decListWith (decListWith decPairSS) r with
    | some (audio, r2) => if r2 = [] then some ⟨video, audio⟩ else none
    | none => none
  | none => none

/-- `SecureLogger` from `src/secure_logger.py`: wraps the cipher; the durable
log file contents are threaded explicitly through `log_event`. -/
structure SecureLogger where
  crypto : CryptoUtils

/-- `SecureLogger.log_event`: validate against the schema; if invalid, warn
and return with nothing changed.  If valid, stamp `logged_at` into the
caller's dict (in-place in Python - the updated dict is returned), serialize,
encrypt, and append one line to the durable log.  Returns the log-file
contents and the event dict as they are after the call. -/
def SecureLogger.log_event (lg : SecureLogger) (logfile : List Bytes)
    (event : Event) (now : String) : List Bytes × Event :=
  if EventSchema.validate event then
    let ev := dictSet event "logged_at" now
    let encrypted := lg.crypto.encrypt (jsonDumpsEvent ev)
    (logfile ++ [encrypted], ev)
  else
    (logfile, event)

/-- The lock-guarded suspicion store shared by N producers: the aggregate
contents collected so far together with each producer's not-yet-appended
events. -/
structure ProducerState (N : Nat) where
  store : List Event
  pending : Fin N → List Event

/-- One lock-serialised append (`with self.lock:
self.suspicions[...].append(event)`, `src/main.py` lines 50-51 and 68-69):
an atomic step in which producer i moves its next event into the store.
Atomicity is what the single mutual-exclusion lock provides, so a snapshot
can never observe a partially-appended entry. -/
inductive StoreStep {N : Nat} : ProducerState N → ProducerState N → Prop
  | append (s : ProducerState N) (i : Fin N) (e : Event) (rest : List Event)
      (h : s.pending i = e :: rest) :
      StoreStep s ⟨s.store ++ [e], Function.update s.pending i rest⟩

/-- An arbitrary interleaving of lock-serialised appends. -/
def StoreReachable {N : Nat} (s t : ProducerState N) : Prop :=
  Relation.ReflTransGen StoreStep s t

/-- `snapshot()`: the consistent copy of the aggregate taken under the lock. -/
def storeSnapshot {N : Nat} (s : ProducerState N) : List Event := s.store

/-- All events in flight, as a multiset: store contents plus pending ones. -/
def storePotential {N : Nat} (s : ProducerState N) : Multiset Event :=
  (s.store : Multiset Event) + ∑ i : Fin N, ((s.pending i : Multiset Event))

/-- Total number of events in flight. -/
def storeCount {N : Nat} (s : ProducerState N) : Nat :=
  s.store.length + ∑ i : Fin N, (s.pending i).length

/-- The observable actions of one loop body of
`CortexShadeSystem.encrypt_and_save` (`src/main.py` lines 83-96), in program
order. -/
inductive TickAction
  | sleepTen
  | acquireStoreLock
  | fileWrite (path : String)
  | fileRead (path : String)
  | encryptCall
  | printMsg
  | releaseStoreLock
deriving DecidableEq

/-- The per-tick action trace of `encrypt_and_save`: `time.sleep(10)`, then
the `with self.lock:` block containing `json.dump` to the plaintext file,
re-reading that file, encrypting, writing the ciphertext file, and the
print - the lock is released only after all of it. -/
def encrypt_and_save_trace : List TickAction :=
  [.sleepTen, .acquireStoreLock,
   .fileWrite "suspicions.json", .fileRead "suspicions.json",
   .encryptCall,
   .fileWrite "suspicions.json.encrypted",
   .printMsg,
   .releaseStoreLock]

/-- Which actions are blocking file I/O. -/
def TickAction.isBlockingIo : TickAction → Bool
  | .fileWrite _ => true
  | .fileRead _ => true
  | _ => false

/-- Annotate each action of a trace with whether the store lock is held
while it runs. -/
def lockFlags : List TickAction → Bool → List (TickAction × Bool)
  | [], _ => []
  | a :: rest, held =>
    match a with
    | .acquireStoreLock => (a, true) :: lockFlags rest true
    | .releaseStoreLock => (a, false) :: lockFlags rest false
    | _ => (a, held) :: lockFlags rest held

/-- The blocking I/O actions of a trace performed while the lock is held. -/
def blockingIoUnderLock (tr : List TickAction) : List TickAction :=
  (((lockFlags tr false).filter fun p => p.2 && p.1.isBlockingIo).map fun p => p.1)

/-- The result record `decrypt_suspicions` computes and prints. -/
structure AuditResult where
  data : Aggregate
  video_score : Nat
  audio_score : Nat
  net_cheating_score : Nat
deriving DecidableEq

/-- Python `f.endswith(".jpg")`. -/
def endsWithJpg (f : String) : Bool := ".jpg".data.isSuffixOf f.data

/-- The video score of `decrypt_suspicions`: the number of `.jpg` files in
the `screenshots` directory listing (`none` models a missing directory, in
which case the score stays 0). -/
def videoScoreOf : Option (List String) → Nat
  | some files => (files.filter endsWithJpg).length
  | none => 0

/-- The session key, as derived in both `CortexShadeSystem.__init__` and
`decrypt_suspicions`: `derive_key_from_password(password)` with the salt file
present and holding `salt`. -/
def sessionKey (password : String) (salt : Bytes) : Bytes :=
  (derive_key_from_password password (some salt) []).1

/-- `decrypt_suspicions` from `src/admin_control.py`: re-derive the key,
decrypt the encrypted snapshot file, parse the aggregate, count `.jpg` files
in the screenshots directory as the video score, take the length of the
`audio` list as the audio score, and report their sum as the net cheating
score.  `none` models the `except` paths: the Python prints an error and
returns nothing. -/
def decrypt_suspicions (password : String) (salt : Bytes) (encryptedFile : Bytes)
    (screenshots : Option (List String)) : Option AuditResult :=
  match (CryptoUtils.mk (sessionKey password salt)).decrypt encryptedFile with
  | .ok text =>
    match jsonLoadsAggregate text with
    | some data =>
      some (AuditResult.mk data (videoScoreOf screenshots) data.audio.length
        (videoScoreOf screenshots + data.audio.length))
    | none => none
  | .error _ => none

/-- The snapshot-producing part of one `encrypt_and_save` tick
(`src/main.py` lines 85-94): serialize the aggregate and encrypt the
serialized text under the session key; the result is what the encrypted
snapshot file holds afterwards. -/
def encrypt_and_save_once (key : Bytes) (suspicions : Aggregate) : Bytes :=
  (CryptoUtils.mk key).encrypt (jsonDumpsAggregate suspicions)

theorem decodePair_encodePair (k b : Bytes) : decodePair (encodePair k b) = some (k, b) := by
  simp [encodePair, decodePair, List.take_left' rfl, List.drop_left' rfl]

theorem encodePair_of_decodePair {l k b : Bytes} (h : decodePair l = some (k, b)) :
    encodePair k b = l := by
  match l with
  | [] => simp [decodePair] at h
  | n :: rest =>
    by_cases hn : n ≤ rest.length
    · simp only [decodePair, if_pos hn, Option.some.injEq, Prod.mk.injEq] at h
      obtain ⟨hk, hb⟩ := h
      subst hk; subst hb
      simp [encodePair, List.length_take, Nat.min_eq_left hn]
    · simp [decodePair, if_neg hn] at h

theorem fernetDecrypt_fernetEncrypt (key body : Bytes) :
    fernetDecrypt key (fernetEncrypt key body) = .ok body := by
  have hlen : (fernetEncrypt key body).length / 2 = (encodePair key body).length := by
    simp [fernetEncrypt, List.length_append]
    omega
  have htake : (fernetEncrypt key body).take ((fernetEncrypt key body).length / 2)
      = encodePair key body := by
    rw [hlen]; exact List.take_left _ _
  have hdrop : (fernetEncrypt key body).drop ((fernetEncrypt key body).length / 2)
      = encodePair key body := by
    rw [hlen]; exact List.drop_left _ _
  rw [fernetDecrypt, htake, hdrop, if_pos rfl, decodePair_encodePair]
  simp

/-- Decryption only succeeds on exactly the token that `fernetEncrypt` under
the same key produces: ideal authenticity. -/
theorem fernetDecrypt_ok_iff (key c body : Bytes) :
    fernetDecrypt key c = .ok body ↔ c = fernetEncrypt key body := by
  constructor
  · intro h
    rw [fernetDecrypt] at h
    by_cases hhalf : c.take (c.length / 2) = c.drop (c.length / 2)
    · rw [if_pos hhalf] at h
      cases hdec : decodePair (c.take (c.length / 2)) with
      | some kb =>
        obtain ⟨k, b⟩ := kb
        rw [hdec] at h
        simp only at h
        by_cases hk : k = key
        · rw [if_pos hk] at h
          have hb : b = body := by simpa using h
          subst hb; subst hk
          have henc := encodePair_of_decodePair hdec
          have hsplit : c = c.take (c.length / 2) ++ c.drop (c.length / 2) :=
            (List.take_append_drop _ _).symm
          rw [hsplit, ← hhalf, ← henc]
          rfl
        · rw [if_neg hk] at h; exact absurd h (by simp)
      | none => rw [hdec] at h; exact absurd h (by simp)
    · rw [if_neg hhalf] at h; exact absurd h (by simp)
  · intro h; subst h; exact fernetDecrypt_fernetEncrypt key body

/-- Single-byte tampering on a genuine token always fails authentication. -/
theorem fernetDecrypt_set (key body : Bytes) (i b : Nat)
    (hi : i < (fernetEncrypt key body).length)
    (hb : b ≠ (fernetEncrypt key body).get ⟨i, hi⟩) :
    fernetDecrypt key ((fernetEncrypt key body).set i b) = .error .authenticationError := by
  set P := encodePair key body with hP
  have hPP : fernetEncrypt key body = P ++ P := rfl
  have hlenP : (fernetEncrypt key body).length = P.length + P.length := by
    rw [hPP, List.length_append]
  have hiP : i < P.length + P.length := hlenP ▸ hi
  have hlen2 : ((fernetEncrypt key body).set i b).length / 2 = P.length := by
    rw [List.length_set, hlenP]; omega
  rw [fernetDecrypt, if_neg]
  rw [hlen2]
  by_cases hcase : i < P.length
  · have hset : (fernetEncrypt key body).set i b = P.set i b ++ P := by
      rw [hPP, List.set_append_left _ _ hcase]
    rw [hset, List.take_left' (by rw [List.length_set]),
      List.drop_left' (by rw [List.length_set])]
    intro heq
    have e1 : (P.set i b)[i]? = some b := List.getElem?_set_self hcase
    rw [heq] at e1
    have e2 : (fernetEncrypt key body)[i]? = P[i]? := by
      rw [hPP, List.getElem?_append_left hcase]
    have e3 : (fernetEncrypt key body)[i]? = some ((fernetEncrypt key body).get ⟨i, hi⟩) := by
      rw [List.get_eq_getElem, List.getElem?_eq_getElem hi]
    apply hb
    have hsome : some b = some ((fernetEncrypt key body).get ⟨i, hi⟩) := by
      rw [← e1, ← e2, e3]
    exact Option.some.inj hsome
  · push_neg at hcase
    have hlt : i - P.length < P.length := by omega
    have hset : (fernetEncrypt key body).set i b = P ++ P.set (i - P.length) b := by
      rw [hPP, List.set_append_right _ _ hcase]
    rw [hset, List.take_left, List.drop_left]
    intro heq
    have e1 : (P.set (i - P.length) b)[i - P.length]? = some b := List.getElem?_set_self hlt
    rw [← heq] at e1
    have e2 : (fernetEncrypt key body)[i]? = P[i - P.length]? := by
      rw [hPP, List.getElem?_append_right hcase]
    have e3 : (fernetEncrypt key body)[i]? = some ((fernetEncrypt key body).get ⟨i, hi⟩) := by
      rw [List.get_eq_getElem, List.getElem?_eq_getElem hi]
    apply hb
    have hsome : some b = some ((fernetEncrypt key body).get ⟨i, hi⟩) := by
      rw [← e1, ← e2, e3]
    exact Option.some.inj hsome

/-- Decryption under a key never accepts a token made under a different key. -/
theorem fernetDecrypt_wrong_key (key key2 body : Bytes) (hne : key2 ≠ key) :
    fernetDecrypt key (fernetEncrypt key2 body) = .error .authenticationError := by
  have hlen : (fernetEncrypt key2 body).length / 2 = (encodePair key2 body).length := by
    simp [fernetEncrypt, List.length_append]
    omega
  have htake : (fernetEncrypt key2 body).take ((fernetEncrypt key2 body).length / 2)
      = encodePair key2 body := by
    rw [hlen]; exact List.take_left _ _
  have hdrop : (fernetEncrypt key2 body).drop ((fernetEncrypt key2 body).length / 2)
      = encodePair key2 body := by
    rw [hlen]; exact List.drop_left _ _
  rw [fernetDecrypt, htake, hdrop, if_pos rfl, decodePair_encodePair]
  simp [hne]

theorem char_toNat_valid (c : Char) : Nat.isValidChar c.toNat := c.valid

theorem char_toNat_ofNat {n : Nat} (h : Nat.isValidChar n) : (Char.ofNat n).toNat = n := by
  simp only [Char.ofNat, dif_pos h]
  rfl

theorem strDecode_strEncode (s : String) : strDecode (strEncode s) = some s := by
  have hvalid : ∀ n ∈ strEncode s, Nat.isValidChar n := by
    intro n hn
    simp only [strEncode, List.mem_map] at hn
    obtain ⟨c, _, hc⟩ := hn
    rw [← hc]; exact char_toNat_valid c
  rw [strDecode, if_pos hvalid]
  congr 1
  have : (strEncode s).map Char.ofNat = s.data := by
    rw [strEncode, List.map_map]
    have : ∀ c ∈ s.data, (Char.ofNat ∘ Char.toNat) c = id c := by
      intro c _; simp [Function.comp, Char.ofNat_toNat]
    rw [List.map_congr_left this, List.map_id]
  rw [this]

theorem strEncode_strDecode {l : Bytes} {s : String} (h : strDecode l = some s) :
    strEncode s = l := by
  rw [strDecode] at h
  by_cases hv : ∀ n ∈ l, Nat.isValidChar n
  · rw [if_pos hv] at h
    have hs : s = String.mk (l.map Char.ofNat) := by
      exact (Option.some.injEq _ _ ▸ h).symm
    subst hs
    show (l.map Char.ofNat).map Char.toNat = l
    rw [List.map_map]
    have : ∀ n ∈ l, (Char.toNat ∘ Char.ofNat) n = id n := by
      intro n hn; simp [Function.comp, char_toNat_ofNat (hv n hn)]
    rw [List.map_congr_left this, List.map_id]
  · rw [if_neg hv] at h; exact absurd h (by simp)

theorem char_toNat_injective : Function.Injective Char.toNat := by
  intro a b h
  rw [← Char.ofNat_toNat a, h, Char.ofNat_toNat]

theorem strEncode_injective : Function.Injective strEncode := by
  intro s t h
  have hdata : s.data = t.data := List.map_injective_iff.mpr char_toNat_injective h
  cases s; cases t; simp_all

theorem decrypt_encrypt_eq_ok (key : Bytes) (P : String) :
    (CryptoUtils.mk key).decrypt ((CryptoUtils.mk key).encrypt P) = .ok P := by
  simp [CryptoUtils.decrypt, CryptoUtils.encrypt, fernetDecrypt_fernetEncrypt,
    strDecode_strEncode]

/-- Claim C2: for every plaintext string P and every cipher instance
constructed with a fixed key, `decrypt (encrypt P) = P`. -/
theorem decrypt_encrypt_roundtrip (key : Bytes) (P : String) :
    (CryptoUtils.mk key).decrypt ((CryptoUtils.mk key).encrypt P) = .ok P :=
  decrypt_encrypt_eq_ok key P

/-- Claim C1: decryption under a fixed key rejects, with an authentication
error, every single-byte modification of a genuine ciphertext and every
ciphertext produced under a different key; and whenever decryption succeeds,
the returned plaintext is exactly the plaintext whose encryption the token is,
so altered plaintext is never returned. -/
theorem decrypt_authentication :
    (∀ (key : Bytes) (P : String) (i b : Nat)
      (hi : i < ((CryptoUtils.mk key).encrypt P).length),
      b ≠ ((CryptoUtils.mk key).encrypt P).get ⟨i, hi⟩ →
      (CryptoUtils.mk key).decrypt (((CryptoUtils.mk key).encrypt P).set i b)
        = .error .authenticationError)
    ∧ (∀ (key key2 : Bytes) (P : String), key2 ≠ key →
      (CryptoUtils.mk key).decrypt ((CryptoUtils.mk key2).encrypt P)
        = .error .authenticationError)
    ∧ (∀ (key : Bytes) (c : Bytes) (s : String),
      (CryptoUtils.mk key).decrypt c = .ok s → (CryptoUtils.mk key).encrypt s = c) := by
  refine ⟨?_, ?_, ?_⟩
  · intro key P i b hi hb
    rw [CryptoUtils.decrypt]
    rw [show ((CryptoUtils.mk key).encrypt P) = fernetEncrypt key (strEncode P) from rfl] at *
    rw [show (CryptoUtils.mk key).key = key from rfl]
    rw [fernetDecrypt_set key (strEncode P) i b hi hb]
  · intro key key2 P hne
    rw [CryptoUtils.decrypt]
    rw [show ((CryptoUtils.mk key2).encrypt P) = fernetEncrypt key2 (strEncode P) from rfl]
    rw [show (CryptoUtils.mk key).key = key from rfl]
    rw [fernetDecrypt_wrong_key key key2 (strEncode P) hne]
  · intro key c s h
    rw [CryptoUtils.decrypt] at h
    cases hdec : fernetDecrypt key c with
    | ok body =>
      rw [hdec] at h
      simp only at h
      cases hsd : strDecode body with
      | some s2 =>
        rw [hsd] at h
        have hs : s2 = s := by simpa using h
        subst hs
        have hbody : strEncode s2 = body := strEncode_strDecode hsd
        have hc := (fernetDecrypt_ok_iff key c body).mp hdec
        rw [CryptoUtils.encrypt]
        show fernetEncrypt key (strEncode s2) = c
        rw [hbody]
        exact hc.symm
      | none => rw [hsd] at h; exact absurd h (by simp)
    | error e =>
      rw [hdec] at h
      exact absurd h (by simp)

/-- Witness for C1: a concrete tampered byte, a concrete wrong key, and a
concrete successful decryption, all at evaluable inputs. -/
theorem decrypt_authentication_witness :
    (CryptoUtils.mk [7]).decrypt (((CryptoUtils.mk [7]).encrypt "a").set 0 99)
      = .error .authenticationError
    ∧ (CryptoUtils.mk [7]).decrypt ((CryptoUtils.mk [8]).encrypt "a")
      = .error .authenticationError
    ∧ (CryptoUtils.mk [7]).encrypt "a" = fernetEncrypt [7] (strEncode "a") := by
  refine ⟨?_, ?_, ?_⟩
  · exact decrypt_authentication.1 [7] "a" 0 99 (by decide) (by decide)
  · exact decrypt_authentication.2.1 [7] [8] "a" (by decide)
  · exact decrypt_authentication.2.2 [7] (fernetEncrypt [7] (strEncode "a")) "a" (by rfl)

theorem encodePair_injective {k1 b1 k2 b2 : Bytes}
    (h : encodePair k1 b1 = encodePair k2 b2) : k1 = k2 ∧ b1 = b2 := by
  have h1 := decodePair_encodePair k1 b1
  rw [h, decodePair_encodePair] at h1
  simpa using h1.symm

theorem urlsafe_b64encode_cons (x : Nat) (xs : Bytes) :
    urlsafe_b64encode (x :: xs) = x / 64 :: x % 64 :: urlsafe_b64encode xs := rfl

theorem urlsafe_b64encode_injective : Function.Injective urlsafe_b64encode := by
  intro a b h
  induction a generalizing b with
  | nil =>
    cases b with
    | nil => rfl
    | cons y ys =>
      rw [show urlsafe_b64encode ([] : Bytes) = [] from rfl, urlsafe_b64encode_cons] at h
      simp at h
  | cons x xs ih =>
    cases b with
    | nil =>
      rw [show urlsafe_b64encode ([] : Bytes) = [] from rfl, urlsafe_b64encode_cons] at h
      simp at h
    | cons y ys =>
      rw [urlsafe_b64encode_cons, urlsafe_b64encode_cons] at h
      injection h with h1 h2
      injection h2 with h2 h3
      have hx : x = y := by omega
      rw [hx, ih h3]

/-- Claim C3: with an existing salt file holding S, the salt file is left
unchanged, every invocation with the same password and the same persisted salt
returns the identical key, and two different passwords under the same salt
derive different keys. -/
theorem derive_key_from_password_spec (W W1 W2 : String) (S r1 r2 r3 : Bytes)
    (hne : W1 ≠ W2) :
    (derive_key_from_password W (some S) r1).2 = some S
    ∧ (derive_key_from_password W (some S) r1).1 = (derive_key_from_password W (some S) r2).1
    ∧ (derive_key_from_password W1 (some S) r1).1 ≠ (derive_key_from_password W2 (some S) r3).1 := by
  refine ⟨rfl, rfl, ?_⟩
  intro h
  simp only [derive_key_from_password] at h
  have h1 := urlsafe_b64encode_injective h
  have h2 := (encodePair_injective h1).1
  exact hne (strEncode_injective h2)

/-- Witness for C3 at concrete inputs. -/
theorem derive_key_from_password_spec_witness :
    (derive_key_from_password "pw" (some [5]) []).2 = some [5]
    ∧ (derive_key_from_password "pw" (some [5]) []).1
      = (derive_key_from_password "pw" (some [5]) [9]).1
    ∧ (derive_key_from_password "a" (some [5]) []).1
      ≠ (derive_key_from_password "b" (some [5]) []).1 :=
  derive_key_from_password_spec "pw" "a" "b" [5] [] [9] [] (by decide)

/-- A nonempty pattern whose characters all avoid a left factor can only occur
as an infix of the right factor. -/
theorem infix_append_of_disjoint {p A B : List Char} (hnil : p ≠ [])
    (hdisj : ∀ a ∈ A, a ∉ p) (h : p <:+: A ++ B) : p <:+: B := by
  induction A with
  | nil => simpa using h
  | cons a A ih =>
    rw [List.cons_append, List.infix_cons_iff] at h
    cases h with
    | inl hpre =>
      rw [List.prefix_cons_iff] at hpre
      cases hpre with
      | inl hempty => exact absurd hempty hnil
      | inr ht =>
        obtain ⟨t, hpt, _⟩ := ht
        have ha : a ∈ p := by rw [hpt]; exact List.mem_cons_self _ _
        exact absurd ha (hdisj a (List.mem_cons_self _ _))
    | inr hinf =>
      exact ih (fun x hx => hdisj x (List.mem_cons_of_mem _ hx)) hinf

/-- Prefix reflection: a prefix of the redactor's output that contains no
opening bracket was already a prefix of the input. -/
theorem prefix_redactAux {l p : List Char} (hbr : '[' ∉ p)
    (h : p <+: redactAux l) : p <+: l := by
  induction l generalizing p with
  | nil =>
    rw [show redactAux [] = [] from by rw [redactAux]] at h
    exact h
  | cons c cs ih =>
    by_cases hpre : "secret".data.isPrefixOf (c :: cs)
    · rw [show redactAux (c :: cs)
          = "[REDACTED]".data ++ redactAux (cs.drop 5) from by rw [redactAux, if_pos hpre]] at h
      rw [show "[REDACTED]".data ++ redactAux (cs.drop 5)
          = '[' :: ("REDACTED]".data ++ redactAux (cs.drop 5)) from rfl] at h
      rw [List.prefix_cons_iff] at h
      cases h with
      | inl hempty => rw [hempty]; exact List.nil_prefix
      | inr ht =>
        obtain ⟨t, hpt, _⟩ := ht
        exact absurd (by rw [hpt]; exact List.mem_cons_self _ _) hbr
    · rw [show redactAux (c :: cs) = c :: redactAux cs from by rw [redactAux, if_neg hpre]] at h
      rw [List.prefix_cons_iff] at h
      cases h with
      | inl hempty => rw [hempty]; exact List.nil_prefix
      | inr ht =>
        obtain ⟨t, hpt, htpre⟩ := ht
        have hbt : '[' ∉ t := fun hmem => hbr (by rw [hpt]; exact List.mem_cons_of_mem _ hmem)
        have := ih hbt htpre
        rw [hpt, List.cons_prefix_cons]
        exact ⟨rfl, this⟩

/-- The redactor's output never contains the marker. -/
theorem redactAux_no_secret_aux (n : Nat) :
    ∀ l : List Char, l.length ≤ n → ¬ ("secret".data <:+: redactAux l) := by
  induction n with
  | zero =>
    intro l hl h
    have : l = [] := List.eq_nil_of_length_eq_zero (Nat.le_zero.mp hl)
    rw [this] at h
    rw [show redactAux [] = [] from by rw [redactAux]] at h
    have := List.eq_nil_of_infix_nil h
    simp at this
  | succ n ih =>
    intro l hl h
    match l with
    | [] =>
      rw [show redactAux [] = [] from by rw [redactAux]] at h
      have := List.eq_nil_of_infix_nil h
      simp at this
    | c :: cs =>
      by_cases hpre : "secret".data.isPrefixOf (c :: cs)
      · rw [show redactAux (c :: cs)
            = "[REDACTED]".data ++ redactAux (cs.drop 5) from by rw [redactAux, if_pos hpre]] at h
        have hdisj : ∀ a ∈ "[REDACTED]".data, a ∉ "secret".data := by decide
        have hrest := infix_append_of_disjoint (by decide) hdisj h
        exact ih (cs.drop 5) (by
          simp only [List.length_drop]
          simp only [List.length_cons] at hl
          omega) hrest
      · rw [show redactAux (c :: cs) = c :: redactAux cs from by rw [redactAux, if_neg hpre]] at h
        rw [List.infix_cons_iff] at h
        cases h with
        | inl hp =>
          rw [show "secret".data = 's' :: "ecret".data from rfl, List.cons_prefix_cons] at hp
          obtain ⟨hc, hrest⟩ := hp
          have hcs : "ecret".data <+: cs := prefix_redactAux (by decide) hrest
          apply hpre
          rw [List.isPrefixOf_iff_prefix]
          rw [show "secret".data = 's' :: "ecret".data from rfl, List.cons_prefix_cons]
          exact ⟨hc, hcs⟩
        | inr hinf =>
          exact ih cs (by simp only [List.length_cons] at hl; omega) hinf

theorem redactAux_no_secret (l : List Char) : ¬ ("secret".data <:+: redactAux l) :=
  redactAux_no_secret_aux l.length l (Nat.le_refl _)

/-- On an input without the marker, one pass is the identity. -/
theorem redactAux_of_no_secret {l : List Char} (h : ¬ ("secret".data <:+: l)) :
    redactAux l = l := by
  induction l with
  | nil => rw [redactAux]
  | cons c cs ih =>
    by_cases hpre : "secret".data.isPrefixOf (c :: cs)
    · exact absurd ((List.isPrefixOf_iff_prefix.mp hpre).isInfix) h
    · rw [show redactAux (c :: cs) = c :: redactAux cs from by rw [redactAux, if_neg hpre]]
      rw [ih (fun hinf => h (List.infix_cons hinf))]

/-- Claim C5: the redactor is idempotent - a second application is a no-op on
every input, including inputs where replacement boundaries could recombine. -/
theorem redact_idempotent (X : String) : redact (redact X) = redact X := by
  show String.mk (redactAux (String.mk (redactAux X.data)).data) = String.mk (redactAux X.data)
  congr 1
  exact redactAux_of_no_secret (redactAux_no_secret X.data)

theorem dictGet_dictSet_same (e : Event) (k v : String) :
    dictGet (dictSet e k v) k = some v := by
  induction e with
  | nil => simp [dictSet, dictGet]
  | cons p rest ih =>
    obtain ⟨k1, v1⟩ := p
    by_cases hk : k1 = k
    · rw [dictSet, if_pos hk, dictGet, if_pos hk]
    · rw [dictSet, if_neg hk, dictGet, if_neg hk]
      exact ih

theorem dictGet_dictSet_ne (e : Event) {k k2 : String} (v : String) (h : k2 ≠ k) :
    dictGet (dictSet e k v) k2 = dictGet e k2 := by
  induction e with
  | nil =>
    show (if k = k2 then some v else dictGet [] k2) = dictGet [] k2
    rw [if_neg (fun hh => h hh.symm)]
  | cons p rest ih =>
    obtain ⟨k1, v1⟩ := p
    by_cases hk : k1 = k
    · subst hk
      rw [dictSet, if_pos rfl, dictGet, dictGet, if_neg (fun hh => h hh.symm),
        if_neg (fun hh => h hh.symm)]
    · rw [dictSet, if_neg hk, dictGet, dictGet]
      by_cases hk2 : k1 = k2
      · rw [if_pos hk2, if_pos hk2]
      · rw [if_neg hk2, if_neg hk2]
        exact ih

theorem decNat_encNat (n : Nat) (r : List Char) : decNat (encNat n ++ r) = some (n, r) := by
  induction n with
  | zero => simp [encNat, decNat]
  | succ n ih =>
    have h : encNat (n + 1) ++ r = '1' :: (encNat n ++ r) := by
      simp [encNat, List.replicate_succ]
    rw [h, decNat, if_neg (by decide), if_pos rfl, ih]

theorem decStr_encStr (s : String) (r : List Char) : decStr (encStr s ++ r) = some (s, r) := by
  rw [decStr, encStr, List.append_assoc, decNat_encNat]
  simp only
  rw [if_pos (by simp [List.length_append])]
  rw [List.take_left, List.drop_left]

theorem decPairSS_encPairSS (p : String × String) (r : List Char) :
    decPairSS (encPairSS p ++ r) = some (p, r) := by
  rw [decPairSS, encPairSS, List.append_assoc, decStr_encStr]
  simp only
  rw [decStr_encStr]

theorem decCount_enc {dec : List Char → Option (α × List Char)} {enc : α → List Char}
    (hdec : ∀ a r, dec (enc a ++ r) = some (a, r)) :
    ∀ (l : List α) (r : List Char),
      decCount dec l.length ((l.map enc).flatten ++ r) = some (l, r) := by
  intro l
  induction l with
  | nil => intro r; simp [decCount]
  | cons a as ih =>
    intro r
    have h : ((a :: as).map enc).flatten ++ r = enc a ++ ((as.map enc).flatten ++ r) := by
      simp [List.map_cons]
    rw [h, List.length_cons, decCount, hdec]
    simp only
    rw [ih]

theorem decListWith_encListWith {dec : List Char → Option (α × List Char)}
    {enc : α → List Char} (hdec : ∀ a r, dec (enc a ++ r) = some (a, r))
    (l : List α) (r : List Char) : decListWith dec (encListWith enc l ++ r) = some (l, r) := by
  rw [decListWith, encListWith, List.append_assoc, decNat_encNat]
  simp only
  exact decCount_enc hdec l r

theorem jsonLoadsEvent_jsonDumpsEvent (e : Event) : jsonLoadsEvent (jsonDumpsEvent e) = some e := by
  rw [jsonLoadsEvent, jsonDumpsEvent]
  have h : (String.mk (encListWith encPairSS e)).data = encListWith encPairSS e ++ [] := by
    simp
  rw [h, decListWith_encListWith decPairSS_encPairSS]
  simp

theorem decEvent_encEvent (e : Event) (r : List Char) :
    decListWith decPairSS (encListWith encPairSS e ++ r) = some (e, r) :=
  decListWith_encListWith decPairSS_encPairSS e r

theorem jsonLoadsAggregate_jsonDumpsAggregate (a : Aggregate) :
    jsonLoadsAggregate (jsonDumpsAggregate a) = some a := by
  rw [jsonLoadsAggregate, jsonDumpsAggregate]
  have h : (String.mk (encListWith (fun e => encListWith encPairSS e) a.video
      ++ encListWith (fun e => encListWith encPairSS e) a.audio)).data
      = encListWith (fun e => encListWith encPairSS e) a.video
        ++ (encListWith (fun e => encListWith encPairSS e) a.audio ++ []) := by
    simp
  rw [h, decListWith_encListWith (fun e r => decEvent_encEvent e r)]
  simp only
  rw [decListWith_encListWith (fun e r => decEvent_encEvent e r)]
  simp

/-- Claim C4: an event missing one of the required keys is never appended to
the durable log, and no state is mutated - the log contents and the event are
returned exactly as they came in. -/
theorem log_event_invalid_skips (lg : SecureLogger) (logfile : List Bytes)
    (event : Event) (now : String) (k : String) (hk : k ∈ ["id", "timestamp", "data"])
    (hmiss : dictGet event k = none) :
    lg.log_event logfile event now = (logfile, event) := by
  rw [SecureLogger.log_event, if_neg]
  intro hval
  rw [EventSchema.validate, List.all_eq_true] at hval
  have := hval k hk
  rw [hmiss] at this
  simp at this

/-- Witness for C4: a concrete event lacking `timestamp` is skipped. -/
theorem log_event_invalid_skips_witness :
    (SecureLogger.mk (CryptoUtils.mk [7])).log_event [] [("id", "1")] "now"
      = ([], [("id", "1")]) :=
  log_event_invalid_skips (SecureLogger.mk (CryptoUtils.mk [7])) [] [("id", "1")] "now"
    "timestamp" (by decide) (by decide)

/-- Claim C10: for every valid event dict, `log_event` stamps `logged_at`
into the caller's dict before encryption, leaving the values of `id`,
`timestamp` and `data` unchanged; the encrypted line appended to the log
serialises the stamped dict; and the mutation is visible to the caller, so
the same dict appended afterwards to the store's video list
(`src/main.py` lines 48-51) is the stamped one. -/
theorem log_event_mutation (lg : SecureLogger) (logfile : List Bytes)
    (store : List Event) (event : Event) (now : String)
    (hval : EventSchema.validate event = true) :
    dictGet (lg.log_event logfile event now).2 "logged_at" = some now
    ∧ dictGet (lg.log_event logfile event now).2 "id" = dictGet event "id"
    ∧ dictGet (lg.log_event logfile event now).2 "timestamp" = dictGet event "timestamp"
    ∧ dictGet (lg.log_event logfile event now).2 "data" = dictGet event "data"
    ∧ (lg.log_event logfile event now).1
      = logfile ++ [lg.crypto.encrypt (jsonDumpsEvent (lg.log_event logfile event now).2)]
    ∧ (store ++ [(lg.log_event logfile event now).2]).getLast?
      = some (lg.log_event logfile event now).2 := by
  have hstep : lg.log_event logfile event now
      = (logfile ++ [lg.crypto.encrypt (jsonDumpsEvent (dictSet event "logged_at" now))],
         dictSet event "logged_at" now) := by
    rw [SecureLogger.log_event, if_pos hval]
  rw [hstep]
  exact ⟨dictGet_dictSet_same _ _ _, dictGet_dictSet_ne _ _ (by decide),
    dictGet_dictSet_ne _ _ (by decide), dictGet_dictSet_ne _ _ (by decide), rfl,
    List.getLast?_concat _⟩

/-- Witness for C10 at a concrete valid event. -/
theorem log_event_mutation_witness :
    dictGet ((SecureLogger.mk (CryptoUtils.mk [7])).log_event []
      [("id", "1"), ("timestamp", "t"), ("data", "d")] "T").2 "logged_at" = some "T"
    ∧ dictGet ((SecureLogger.mk (CryptoUtils.mk [7])).log_event []
      [("id", "1"), ("timestamp", "t"), ("data", "d")] "T").2 "id" =
        dictGet [("id", "1"), ("timestamp", "t"), ("data", "d")] "id"
    ∧ dictGet ((SecureLogger.mk (CryptoUtils.mk [7])).log_event []
      [("id", "1"), ("timestamp", "t"), ("data", "d")] "T").2 "timestamp" =
        dictGet [("id", "1"), ("timestamp", "t"), ("data", "d")] "timestamp"
    ∧ dictGet ((SecureLogger.mk (CryptoUtils.mk [7])).log_event []
      [("id", "1"), ("timestamp", "t"), ("data", "d")] "T").2 "data" =
        dictGet [("id", "1"), ("timestamp", "t"), ("data", "d")] "data"
    ∧ ((SecureLogger.mk (CryptoUtils.mk [7])).log_event []
      [("id", "1"), ("timestamp", "t"), ("data", "d")] "T").1
      = [] ++ [(CryptoUtils.mk [7]).encrypt (jsonDumpsEvent
          ((SecureLogger.mk (CryptoUtils.mk [7])).log_event []
            [("id", "1"), ("timestamp", "t"), ("data", "d")] "T").2)]
    ∧ ([] ++ [((SecureLogger.mk (CryptoUtils.mk [7])).log_event []
        [("id", "1"), ("timestamp", "t"), ("data", "d")] "T").2]).getLast?
      = some ((SecureLogger.mk (CryptoUtils.mk [7])).log_event []
        [("id", "1"), ("timestamp", "t"), ("data", "d")] "T").2 :=
  log_event_mutation (SecureLogger.mk (CryptoUtils.mk [7])) [] []
    [("id", "1"), ("timestamp", "t"), ("data", "d")] "T" (by decide)

theorem storePotential_step {N : Nat} {s t : ProducerState N} (h : StoreStep s t) :
    storePotential t = storePotential s := by
  cases h with
  | append i e rest hp =>
    simp only [storePotential]
    have hupd : ∀ x : Fin N, ((Function.update s.pending i rest x : List Event) : Multiset Event)
        = Function.update (fun j => ((s.pending j : List Event) : Multiset Event))
            i (rest : Multiset Event) x :=
      fun x => Function.apply_update (fun _ l => ((l : List Event) : Multiset Event))
        s.pending i rest x
    rw [Finset.sum_congr rfl (fun x _ => hupd x),
      Finset.sum_update_of_mem (Finset.mem_univ i),
      Finset.sum_eq_add_sum_diff_singleton (Finset.mem_univ i)
        (fun j => ((s.pending j : List Event) : Multiset Event)), hp]
    rw [← Multiset.coe_add, Multiset.coe_singleton, ← Multiset.cons_coe,
      ← Multiset.singleton_add]
    abel

theorem storeCount_step {N : Nat} {s t : ProducerState N} (h : StoreStep s t) :
    storeCount t = storeCount s := by
  cases h with
  | append i e rest hp =>
    simp only [storeCount]
    have hupd : ∀ x : Fin N, (Function.update s.pending i rest x).length
        = Function.update (fun j => (s.pending j).length) i rest.length x :=
      fun x => Function.apply_update (fun _ l => (l : List Event).length) s.pending i rest x
    rw [Finset.sum_congr rfl (fun x _ => hupd x),
      Finset.sum_update_of_mem (Finset.mem_univ i),
      Finset.sum_eq_add_sum_diff_singleton (Finset.mem_univ i)
        (fun j => (s.pending j).length), hp]
    simp [List.length_append]
    omega

theorem storePotential_reachable {N : Nat} {s t : ProducerState N}
    (h : StoreReachable s t) : storePotential t = storePotential s := by
  induction h with
  | refl => rfl
  | tail _ hstep ih => rw [storePotential_step hstep, ih]

theorem storeCount_reachable {N : Nat} {s t : ProducerState N}
    (h : StoreReachable s t) : storeCount t = storeCount s := by
  induction h with
  | refl => rfl
  | tail _ hstep ih => rw [storeCount_step hstep, ih]

/-- Claim C6: when N producers each hold M events and every append goes
through the store's lock, every complete interleaving leaves a snapshot with
exactly N*M entries whose contents are exactly the producers' events - no
losses, no duplicates; and since each append is one atomic lock-protected
step, no snapshot ever observes a partially-appended entry. -/
theorem concurrent_append_safety {N M : Nat} (pending0 : Fin N → List Event)
    (hM : ∀ i, (pending0 i).length = M) (t : ProducerState N)
    (hreach : StoreReachable ⟨[], pending0⟩ t)
    (hdone : ∀ i, t.pending i = []) :
    (storeSnapshot t).length = N * M
    ∧ (storeSnapshot t : Multiset Event) = ∑ i : Fin N, (pending0 i : Multiset Event) := by
  constructor
  · have hc := storeCount_reachable hreach
    simp only [storeCount, hdone, List.length_nil, Finset.sum_const_zero, Nat.add_zero,
      Nat.zero_add] at hc
    rw [storeSnapshot, hc]
    rw [Finset.sum_congr rfl (fun i _ => hM i), Finset.sum_const, Finset.card_univ,
      Fintype.card_fin, smul_eq_mul]
  · have hp := storePotential_reachable hreach
    simp only [storePotential] at hp
    have hz : ∑ i : Fin N, ((t.pending i : Multiset Event)) = 0 := by
      apply Finset.sum_eq_zero
      intro i _
      rw [hdone i]
      rfl
    rw [hz, add_zero] at hp
    have hz0 : (([] : List Event) : Multiset Event) = 0 := rfl
    rw [hz0, zero_add] at hp
    exact hp

/-- Witness for C6: one producer, one event, one step. -/
theorem concurrent_append_safety_witness :
    (storeSnapshot (ProducerState.mk ([] ++ [[("id", "w")]])
      (Function.update (fun _ : Fin 1 => [[("id", "w")]]) (0 : Fin 1) []))).length = 1 * 1
    ∧ ((storeSnapshot (ProducerState.mk ([] ++ [[("id", "w")]])
      (Function.update (fun _ : Fin 1 => [[("id", "w")]]) (0 : Fin 1) []))
        : List Event) : Multiset Event)
      = ∑ i : Fin 1, (((fun _ : Fin 1 => [[("id", "w")]]) i : List Event) : Multiset Event) :=
  concurrent_append_safety (fun _ : Fin 1 => [[("id", "w")]]) (by decide)
    (ProducerState.mk ([] ++ [[("id", "w")]])
      (Function.update (fun _ : Fin 1 => [[("id", "w")]]) (0 : Fin 1) []))
    (Relation.ReflTransGen.single
      (StoreStep.append (ProducerState.mk [] (fun _ : Fin 1 => [[("id", "w")]]))
        (0 : Fin 1) [("id", "w")] [] rfl))
    (by decide)

/-- C7, what the code does: a persistence tick performs both snapshot-file
writes and the plaintext re-read while holding the store lock - the
serialize/encrypt/write work is not moved outside the lock. -/
theorem encrypt_and_save_io_under_lock :
    blockingIoUnderLock encrypt_and_save_trace
      = [.fileWrite "suspicions.json", .fileRead "suspicions.json",
         .fileWrite "suspicions.json.encrypted"]
    ∧ (blockingIoUnderLock encrypt_and_save_trace).length = 3 := by
  constructor <;> rfl

theorem decrypt_suspicions_of_tick (password : String) (salt : Bytes) (agg : Aggregate)
    (shots : Option (List String)) :
    decrypt_suspicions password salt
      (encrypt_and_save_once (sessionKey password salt) agg) shots
      = some (AuditResult.mk agg (videoScoreOf shots) agg.audio.length
          (videoScoreOf shots + agg.audio.length)) := by
  rw [decrypt_suspicions, encrypt_and_save_once, decrypt_encrypt_eq_ok]
  simp only
  rw [jsonLoadsAggregate_jsonDumpsAggregate]

/-- Claim C8: on a snapshot produced by the pipeline, the auditor's video
score is the count of `.jpg` artifacts in the screenshots directory, its
audio score is the length of the `audio` sequence of the decrypted aggregate,
and the reported net score is their sum. -/
theorem auditor_scores (password : String) (salt : Bytes) (agg : Aggregate)
    (shots : Option (List String)) :
    decrypt_suspicions password salt
      (encrypt_and_save_once (sessionKey password salt) agg) shots
      = some (AuditResult.mk agg (videoScoreOf shots) agg.audio.length
          (videoScoreOf shots + agg.audio.length)) :=
  decrypt_suspicions_of_tick password salt agg shots

/-- Claim C9 as amended: a session with exactly 3 video and 2 audio events,
one persistence tick, and decryption under the correct password yields an
aggregate with `video` of length 3 and `audio` of length 2; the net score is
5 provided the screenshots directory holds exactly 3 `.jpg` artifacts (the
video score counts artifacts, not events in the `video` sequence). -/
theorem normal_session_scenario (password : String) (salt : Bytes)
    (v1 v2 v3 a1 a2 : Event) (shots : List String)
    (hsh : (shots.filter endsWithJpg).length = 3) :
    decrypt_suspicions password salt
      (encrypt_and_save_once (sessionKey password salt)
        (Aggregate.mk [v1, v2, v3] [a1, a2])) (some shots)
      = some (AuditResult.mk (Aggregate.mk [v1, v2, v3] [a1, a2]) 3 2 5) := by
  rw [decrypt_suspicions_of_tick]
  have hv : videoScoreOf (some shots) = 3 := by rw [videoScoreOf]; exact hsh
  simp [hv]

/-- Witness for the amended C9 at concrete inputs. -/
theorem normal_session_scenario_witness :
    decrypt_suspicions "pw" [1]
      (encrypt_and_save_once (sessionKey "pw" [1])
        (Aggregate.mk [[("id", "v1")], [("id", "v2")], [("id", "v3")]]
          [[("id", "a1")], [("id", "a2")]]))
      (some ["s1.jpg", "s2.jpg", "s3.jpg"])
      = some (AuditResult.mk (Aggregate.mk [[("id", "v1")], [("id", "v2")], [("id", "v3")]]
          [[("id", "a1")], [("id", "a2")]]) 3 2 5) :=
  normal_session_scenario "pw" [1] [("id", "v1")] [("id", "v2")] [("id", "v3")]
    [("id", "a1")] [("id", "a2")] ["s1.jpg", "s2.jpg", "s3.jpg"] (by decide)

set_option maxRecDepth 16384 in
/-- Counterexample to C9 as stated: the same injected session (3 video, 2
audio events, one tick, correct password) with no screenshots directory gives
video length 3 and audio length 2 but a net score of 2, not 5: the code's
video score counts `.jpg` artifacts, which injecting events through the store
does not create. -/
theorem normal_session_net_score_counterexample :
    decrypt_suspicions "pw" [1]
      (encrypt_and_save_once (sessionKey "pw" [1])
        (Aggregate.mk [[("id", "v1")], [("id", "v2")], [("id", "v3")]]
          [[("id", "a1")], [("id", "a2")]]))
      none
      = some (AuditResult.mk (Aggregate.mk [[("id", "v1")], [("id", "v2")], [("id", "v3")]]
          [[("id", "a1")], [("id", "a2")]]) 0 2 2)
    ∧ (2 : Nat) ≠ 5 := by
  refine ⟨?_, by decide⟩
  decide

end CortexShade
